import Mathlib

/-!
Shallow embedding of the `goroot` overlay/symbol-pruning engine:
the Go AST fragments it manipulates, the `SymbolFilter` collector and
pruner, the `augmenter` variant, the `nosync` import redirector, the
transformer chaining combinator and the per-file pipeline driver
(`processSource` / `writeAST` / `copyUnmodified`).

Go values are embedded as follows: `token.Pos` becomes `Int`; a
`token.FileSet` is abstracted to the rendering function
`token.Pos → String` that `FileSet.Position(pos).String()` computes; Go
maps become association lists with overwrite-on-insert; functions that
can panic return `Option`, with `none` standing for the panic.
-/

namespace GoRoot

/-- Go `token.Pos` (an integer offset). -/
abbrev Pos := Int

/-- Abstraction of `go/token.FileSet`: all the engine uses a file set for
is rendering a `token.Pos` as the string `file:line:column`, so we model
the set by that rendering function. -/
abbrev FileSet := Pos → String

/-- The expression shapes the engine inspects or prints.  `other` stands
for every remaining `go/ast` expression form and carries its printed
rendering (the engine never looks inside such expressions). -/
inductive Expr where
  | ident (name : String)
  | star (e : Expr)
  | other (printed : String)
deriving Repr, DecidableEq

/-- `go/ast.Ident` together with its `NamePos`. -/
structure Ident where
  name : String
  pos : Pos
deriving Repr, DecidableEq

/-- One entry of a `go/ast.FieldList` (parameter, result or receiver
field): a possibly empty name list and a type. -/
structure Field where
  names : List String
  type : Expr
deriving Repr, DecidableEq

/-- `go/ast.FuncType`: parameters and results. -/
structure FuncType where
  params : List Field
  results : List Field
deriving Repr, DecidableEq

/-- `go/ast.ImportSpec`: optional alias and the quoted path literal
(`Path.Value`, quotes included). -/
structure ImportSpec where
  name : Option String
  pathValue : String
deriving Repr, DecidableEq

/-- `go/ast.ValueSpec`: named var/const binding with optional type and
positional initializer expressions. -/
structure ValueSpec where
  names : List Ident
  type : Option Expr
  values : List Expr
deriving Repr, DecidableEq

/-- `go/ast.TypeSpec`: a named type declaration; `pos` is `node.Pos()`. -/
structure TypeSpec where
  name : String
  pos : Pos
  type : Expr
deriving Repr, DecidableEq

/-- The `go/token.Token` values a `GenDecl` or a placeholder can carry. -/
inductive Tok where
  | importTok
  | constTok
  | varTok
  | typeTok
  | funcTok
deriving Repr, DecidableEq

/-- `token.Token.String()` for the tokens above. -/
def Tok.render : Tok → String
  | .importTok => "import"
  | .constTok => "const"
  | .varTok => "var"
  | .typeTok => "type"
  | .funcTok => "func"

/-- A child spec of a `go/ast.GenDecl`. -/
inductive Spec where
  | importSpec (s : ImportSpec)
  | valueSpec (s : ValueSpec)
  | typeSpec (s : TypeSpec)
deriving Repr, DecidableEq

/-- `go/ast.GenDecl`: token, declaration position (`node.Pos()`), specs. -/
structure GenDecl where
  tok : Tok
  pos : Pos
  specs : List Spec
deriving Repr, DecidableEq

/-- `go/ast.FuncDecl`: name, optional receiver field list, signature and
position (`node.Pos()`).  The body is irrelevant to the engine and
omitted. -/
structure FuncDecl where
  name : String
  recv : Option (List Field)
  ftype : FuncType
  pos : Pos
deriving Repr, DecidableEq

/-- A top-level declaration of a file. -/
inductive Decl where
  | gen (g : GenDecl)
  | func (d : FuncDecl)
deriving Repr, DecidableEq

/-- A single `go/ast.Comment`: slash position and text. -/
structure Comment where
  slash : Pos
  text : String
deriving Repr, DecidableEq

/-- `go/ast.File`: package name, top-level declarations in source order,
and the file comment list (each placeholder comment group holds exactly
one comment, so we store the comments directly). -/
structure File where
  pkgName : String
  decls : List Decl
  comments : List Comment
deriving Repr, DecidableEq

/-- `SymbolFilter` (the `map[string]token.Pos` implementation): the file
set used to render replacement positions and the `WillPrune` table,
modelled as an association list with Go-map overwrite semantics. -/
structure SymbolFilter where
  fileSet : Option FileSet
  willPrune : List (String × Pos)

/-- Go map assignment `m[k] = p`: overwrite the binding when the key is
present, otherwise add it. -/
def insertKey (m : List (String × Pos)) (k : String) (p : Pos) : List (String × Pos) :=
  if m.any (fun kv => kv.1 = k) then
    m.map (fun kv => if kv.1 = k then (k, p) else kv)
  else
    m ++ [(k, p)]

/-- Go map lookup `m[k]`. -/
def lookupKey (m : List (String × Pos)) (k : String) : Option Pos :=
  m.lookup k

/-- `SymbolFilter.funcName`: plain name for functions; for methods,
`receiver.name` with one pointer star unwrapped.  The Go code ends with
the unchecked type assertion `recv.(*ast.Ident)`, which panics when the
receiver type is neither an identifier nor a pointer whose element is an
identifier; `none` models that panic. -/
def SymbolFilter.funcName (d : FuncDecl) : Option String :=
  match d.recv with
  | none => some d.name
  | some [] => some d.name
  | some (r :: _) =>
    let recvTy :=
      match r.type with
      | .star x => x
      | t => t
    match recvTy with
    | .ident n => some (n ++ "." ++ d.name)
    | _ => none

/-- `SymbolFilter.key` on a `*ast.TypeSpec`. -/
def SymbolFilter.keyType (f : File) (s : TypeSpec) : String :=
  f.pkgName ++ "." ++ s.name

/-- `SymbolFilter.key` on a `*ast.FuncDecl` (may panic via `funcName`). -/
def SymbolFilter.keyFunc (f : File) (d : FuncDecl) : Option String :=
  (SymbolFilter.funcName d).map (fun n => f.pkgName ++ "." ++ n)

/-- `SymbolFilter.key` on a `*ast.Ident` (top-level var/const name). -/
def SymbolFilter.keyIdent (f : File) (n : String) : String :=
  f.pkgName ++ "." ++ n

/-- The `collectName` callback on one spec of a non-import `GenDecl`:
value specs contribute one entry per name, type specs one entry. -/
def collectSpec (f : File) (m : List (String × Pos)) : Spec → List (String × Pos)
  | .importSpec _ => m
  | .valueSpec s =>
    s.names.foldl (fun m n => insertKey m (SymbolFilter.keyIdent f n.name) n.pos) m
  | .typeSpec s => insertKey m (SymbolFilter.keyType f s) s.pos

/-- The `collectName` callback on one top-level declaration.  Import
declarations are not descended into (`node.Tok != token.IMPORT`); a
function declaration whose key computation panics yields `none`. -/
def collectDecl (f : File) (m : List (String × Pos)) : Decl → Option (List (String × Pos))
  | .gen g =>
    if g.tok = Tok.importTok then some m
    else some (g.specs.foldl (collectSpec f) m)
  | .func d =>
    (SymbolFilter.keyFunc f d).map (fun k => insertKey m k d.pos)

/-- `SymbolFilter.Collect`: walk the top-level declarations accumulating
`WillPrune` entries; never modifies the file and always reports
`changed = false`.  `none` models the panic inside `key`. -/
def SymbolFilter.Collect (sf : SymbolFilter) (f : File) :
    Option (SymbolFilter × Bool) :=
  (f.decls.foldlM (collectDecl f) sf.willPrune).map
    (fun m => ({ sf with willPrune := m }, false))

/-- `SymbolFilter.IsEmpty`. -/
def SymbolFilter.IsEmpty (sf : SymbolFilter) : Bool :=
  sf.willPrune.length = 0

/-! ### Placeholder synthesis

`SymbolFilter.placeholder` prints the abbreviated node it is handed with
`go/format.Node` and wraps the result in a comment.  Only three node
shapes are ever constructed for printing: a bodyless `FuncDecl`
(name, receiver, signature), a one-spec `var`/`const` `GenDecl` whose
single name has the type `<abbreviated>`, and a one-spec `type` `GenDecl`
with underlying type `<abbreviated>`.  `formatNode` below models the
`go/format` rendering of exactly those shapes (single-line gofmt layout,
as pinned down by the repository's own golden-output tests). -/

/-- Printed form of an expression. -/
def Expr.render : Expr → String
  | .ident n => n
  | .star e => "*" ++ e.render
  | .other printed => printed

/-- Printed form of one field: `a, b T` or bare `T`. -/
def Field.render (fd : Field) : String :=
  match fd.names with
  | [] => fd.type.render
  | ns => String.intercalate ", " ns ++ " " ++ fd.type.render

/-- Printed form of a comma-separated field list. -/
def renderFields (fs : List Field) : String :=
  String.intercalate ", " (fs.map Field.render)

/-- Printed form of a result list: empty, a bare single unnamed type, or
a parenthesized list. -/
def renderResults (rs : List Field) : String :=
  match rs with
  | [] => ""
  | [r] =>
    match r.names with
    | [] => " " ++ r.type.render
    | _ => " (" ++ renderFields rs ++ ")"
  | _ => " (" ++ renderFields rs ++ ")"

/-- The node shapes `SymbolFilter.Prune` constructs for printing inside
a placeholder comment. -/
inductive PNode where
  | funcSig (recv : Option (List Field)) (name : String) (ftype : FuncType)
  | valueAbbrev (tok : Tok) (name : String)
  | typeAbbrev (name : String)
deriving Repr, DecidableEq

/-- `go/format.Node` on the shapes above. -/
def formatNode : PNode → String
  | .funcSig recv name ft =>
    let recvPart :=
      match recv with
      | none => ""
      | some rs => "(" ++ renderFields rs ++ ") "
    "func " ++ recvPart ++ name ++ "(" ++ renderFields ft.params ++ ")" ++
      renderResults ft.results
  | .valueAbbrev tok name => tok.render ++ " " ++ name ++ " <abbreviated>"
  | .typeAbbrev name => "type " ++ name ++ " <abbreviated>"

/-- `SymbolFilter.position`: render a position through the filter's file
set; a nil file set yields the zero `token.Position`, whose `String()`
is `"-"`. -/
def SymbolFilter.position (sf : SymbolFilter) (pos : Pos) : String :=
  match sf.fileSet with
  | none => "-"
  | some fs => fs pos

/-- `strings.ReplaceAll(buf.String(), "\n", "\n// ")`: since the
pattern is the single character `\n`, the replacement acts
character-by-character. -/
def recommentNewlines (s : String) : String :=
  ⟨s.data.flatMap (fun c => if c = '\n' then '\n' :: ['/', '/', ' '] else [c])⟩

/-- The comment text built by `SymbolFilter.placeholder`: the formatted
node (newlines re-commented) followed by the em-dash marker and the
replacement position. -/
def SymbolFilter.placeholderText (sf : SymbolFilter) (n : PNode) (replPos : Pos) : String :=
  let str := recommentNewlines (formatNode n)
  "// " ++ str ++ " — GopherJS replacement at " ++ sf.position replPos

/-- The full comment built by `SymbolFilter.placeholder` (the comment
group holds a single comment whose slash is `origPos`). -/
def SymbolFilter.placeholderComment (sf : SymbolFilter) (n : PNode)
    (origPos replPos : Pos) : Comment :=
  { slash := origPos, text := sf.placeholderText n replPos }

/-! ### Pruning -/

/-- Does a name's key hit the `WillPrune` table? -/
def SymbolFilter.hits (sf : SymbolFilter) (f : File) (n : Ident) : Bool :=
  (lookupKey sf.willPrune (SymbolFilter.keyIdent f n.name)).isSome

/-- The per-name loop of the `*ast.ValueSpec` case of `visitNode`: for
each name whose key is in the table, emit a placeholder comment (built
from a one-name `GenDecl` with the `<abbreviated>` type, slash position
`parent.Pos()-1`) and replace the name by a fresh `_` identifier
(`ast.NewIdent` carries `token.NoPos`, i.e. position `0`); count the
matches.  Returns (new names, comments in source order, match count). -/
def pruneNames (sf : SymbolFilter) (f : File) (parentTok : Tok) (parentPos : Pos) :
    List Ident → List Ident × List Comment × Nat
  | [] => ([], [], 0)
  | n :: rest =>
    let r := pruneNames sf f parentTok parentPos rest
    match lookupKey sf.willPrune (SymbolFilter.keyIdent f n.name) with
    | some pos =>
      (⟨"_", 0⟩ :: r.1,
       sf.placeholderComment (.valueAbbrev parentTok n.name) (parentPos - 1) pos :: r.2.1,
       r.2.2 + 1)
    | none => (n :: r.1, r.2.1, r.2.2)

/-- The `visitNode` cases for the specs of a non-import `GenDecl`.
Returns the surviving spec (or `none` when deleted), the placeholder
comments appended, and the `pruned` contribution.  An all-matched value
spec is deleted outright (`remaining == 0`); a type spec whose key
matches is deleted. -/
def SymbolFilter.pruneSpec (sf : SymbolFilter) (f : File) (parentTok : Tok)
    (parentPos : Pos) : Spec → Option Spec × List Comment × Bool
  | .importSpec s => (some (.importSpec s), [], false)
  | .valueSpec s =>
    let r := pruneNames sf f parentTok parentPos s.names
    (if r.2.2 = s.names.length then none
     else some (.valueSpec { s with names := r.1 }),
     r.2.1,
     r.2.2 != 0)
  | .typeSpec s =>
    match lookupKey sf.willPrune (SymbolFilter.keyType f s) with
    | some pos =>
      (none,
       [sf.placeholderComment (.typeAbbrev s.name) (parentPos - 1) pos],
       true)
    | none => (some (.typeSpec s), [], false)

/-- `visitNode` plus the `pruneEmptyDecls` post pass on one top-level
declaration.  Import declarations return `false` from `visitNode`
before their children, so `astutil.Apply` neither descends into them nor
runs the post pass on them — they survive verbatim, even when empty.
A non-import `GenDecl` has its specs processed and, when no spec
remains, is deleted by the post pass.  A function declaration whose key
is in the table is deleted and replaced by a placeholder built from its
bodyless signature; `none` models the panic inside `key`. -/
def SymbolFilter.pruneDecl (sf : SymbolFilter) (f : File) :
    Decl → Option (Option Decl × List Comment × Bool)
  | .gen g =>
    if g.tok = Tok.importTok then some (some (.gen g), [], false)
    else
      let results := g.specs.map (sf.pruneSpec f g.tok g.pos)
      let specs2 := results.filterMap (fun r => r.1)
      let comments := results.foldl (fun acc r => acc ++ r.2.1) []
      let ch := results.any (fun r => r.2.2)
      some (if specs2.isEmpty then none else some (.gen { g with specs := specs2 }),
            comments, ch)
  | .func d =>
    match SymbolFilter.keyFunc f d with
    | none => none
    | some k =>
      match lookupKey sf.willPrune k with
      | some pos =>
        some (none,
              [sf.placeholderComment (.funcSig d.recv d.name d.ftype) d.pos pos],
              true)
      | none => some (some (.func d), [], false)

/-- One step of the traversal: accumulate the surviving declaration,
the emitted comments and the `pruned` flag. -/
def SymbolFilter.pruneStep (sf : SymbolFilter) (f : File)
    (acc : List Decl × List Comment × Bool) (d : Decl) :
    Option (List Decl × List Comment × Bool) :=
  (sf.pruneDecl f d).map
    (fun r => (acc.1 ++ r.1.toList, acc.2.1 ++ r.2.1, acc.2.2 || r.2.2))

/-- `SymbolFilter.Prune`: returns `false` immediately on an empty
filter; otherwise walks the top-level declarations with `visitNode`
(pre) and `pruneEmptyDecls` (post), appending all placeholder comments
to the file's comment list in traversal order.  `none` models the panic
inside `key` on an unsupported receiver shape. -/
def SymbolFilter.Prune (sf : SymbolFilter) (f : File) : Option (File × Bool) :=
  if sf.IsEmpty then some (f, false)
  else
    (f.decls.foldlM (sf.pruneStep f) ([], [], false)).map
      (fun r => ({ f with decls := r.1, comments := f.comments ++ r.2.1 }, r.2.2))

/-! ### The `augmenter` variant

The second implementation of the collector/pruner keys symbols the same
way but formats its placeholder comments from the token and the bare
symbol name instead of printing an abbreviated node. -/

namespace Augmenter

/-- `augmenter.funcName`: same logic as `SymbolFilter.funcName`,
including the panicking type assertion (`none`). -/
def funcName (d : FuncDecl) : Option String :=
  match d.recv with
  | none => some d.name
  | some [] => some d.name
  | some (r :: _) =>
    let recvTy :=
      match r.type with
      | .star x => x
      | t => t
    match recvTy with
    | .ident n => some (n ++ "." ++ d.name)
    | _ => none

/-- The comment text built by `augmenter.placeholder` via
`fmt.Sprintf("// %s %s ... GopherJS replacement at %s", ...)`.  The
separator in the source format string is NOT the em-dash: the file
literally contains the bytes `C3 A2 E2 82 AC E2 80 9D`, i.e. the
characters U+00E2 U+20AC U+201D — a UTF-8-read-as-cp1252 double
encoding of the em-dash — and we reproduce those characters exactly. -/
def placeholderText (fset : FileSet) (tok : Tok) (name : String) (replPos : Pos) : String :=
  "// " ++ tok.render ++ " " ++ name ++ " â€” GopherJS replacement at " ++
    fset replPos

end Augmenter

/-! ### Transformers, the import redirector and the pipeline driver -/

/-- `astTransformer`: processes a file in place and reports whether it
made modifications.  The Go function may panic; `none` models that. -/
def AstTransformer := File → Option (File × Bool)

/-- `astTransformer.chain`.  The Go body is

```
modified := left(fset, f)
modified = modified || right(fset, f)
return modified
```

and Go's `||` operator short-circuits: the call `right(fset, f)` is
evaluated only when `modified` is still `false`. -/
def AstTransformer.chain (left right : AstTransformer) : AstTransformer :=
  fun f =>
    match left f with
    | none => none
    | some (f1, modified) =>
      if modified then some (f1, modified)
      else
        (right f1).map (fun r => (r.1, modified || r.2))

/-- `identity`: the trivial transformer. -/
def identityTransformer : AstTransformer := fun f => some (f, false)

/-- Go `strconv.Unquote` restricted to the escape-free string
literals that import paths carry: strip the surrounding quotes. -/
def unquote (s : String) : String :=
  if 2 ≤ s.length ∧ s.startsWith "\"" ∧ s.endsWith "\"" then
    (s.drop 1).dropRight 1
  else s

/-- The rewritten import path literal. -/
def nosyncPathValue : String := "\"github.com/gopherjs/gopherjs/nosync\""

/-- The body of the `nosync` loop on one import spec: a spec whose
unquoted path is `"sync"` gets the alias `sync` when it had none and its
path literal replaced; everything else is untouched. -/
def rewriteImport (s : ImportSpec) : ImportSpec × Bool :=
  if unquote s.pathValue = "sync" then
    ({ name := some (s.name.getD "sync"), pathValue := nosyncPathValue }, true)
  else (s, false)

/-- `rewriteImport` lifted to an arbitrary spec: only import specs are
touched. -/
def rewriteSpec (s : Spec) : Spec × Bool :=
  match s with
  | .importSpec is =>
    let r := rewriteImport is
    (Spec.importSpec r.1, r.2)
  | s => (s, false)

/-- Apply `rewriteImport` to the import specs of one declaration
(`f.Imports` aliases exactly the import specs stored in the
declarations, so mutating through it rewrites them in place). -/
def rewriteDeclImports (d : Decl) : Decl × Bool :=
  match d with
  | .func fd => (.func fd, false)
  | .gen g =>
    let rs := g.specs.map rewriteSpec
    (.gen { g with specs := rs.map (fun r => r.1) }, rs.any (fun r => r.2))

/-- `nosync`: rewrite `"sync"` imports to the gopherjs `nosync` package,
reporting whether any import was rewritten. -/
def nosync : AstTransformer := fun f =>
  let rs := f.decls.map rewriteDeclImports
  some ({ f with decls := rs.map (fun r => r.1) }, rs.any (fun r => r.2))

/-- `SymbolFilter.Prune` used as a transformer. -/
def SymbolFilter.pruneTransformer (sf : SymbolFilter) : AstTransformer :=
  fun f => sf.Prune f

/-! ### Filesystem model for the pipeline driver -/

/-- A path in the destination filesystem. -/
abbrev Path := String

/-- One destination filesystem entry: a regular file with content, or a
symlink to a target path. -/
inductive DiskEntry where
  | regular (content : String)
  | symlink (target : Path)
deriving Repr, DecidableEq

/-- State of the destination filesystem: an association of paths to
entries. -/
structure DiskState where
  files : List (Path × DiskEntry)
deriving Repr, DecidableEq

/-- `os.Stat(p)` succeeding, i.e. the path exists. -/
def DiskState.pathExists (d : DiskState) (p : Path) : Bool :=
  d.files.any (fun e => e.1 = p)

/-- `os.Create(p)` followed by writing `c`: truncates an existing file
or creates a new one — it does NOT fail when the path exists. -/
def DiskState.create (d : DiskState) (p : Path) (c : String) : DiskState :=
  if d.pathExists p then
    { files := d.files.map (fun e => if e.1 = p then (p, .regular c) else e) }
  else
    { files := d.files ++ [(p, .regular c)] }

/-- `os.Symlink(target, p)`: fails when `p` already exists. -/
def DiskState.symlink (d : DiskState) (target : Path) (p : Path) : Option DiskState :=
  if d.pathExists p then none
  else some { files := d.files ++ [(p, .symlink target)] }

/-- The source filesystem handed to the driver (`http.FileSystem`):
whether it is an `http.Dir` over the real filesystem, the real
directory's path (the `string(realFS)` used to build symlink targets),
and the readable contents. -/
structure LoadFS where
  isRealDir : Bool
  realDirPath : String
  contents : Path → Option String

/-- Errors surfaced by the pipeline driver. -/
inductive PipelineError where
  | loadFailed
  | destinationExists (p : Path)
  | symlinkFailed (p : Path)
deriving Repr, DecidableEq

instance : DecidableEq (Except PipelineError DiskState) := fun x y =>
  match x, y with
  | .error a, .error b =>
    if h : a = b then .isTrue (by rw [h]) else .isFalse (by simp [h])
  | .ok a, .ok b =>
    if h : a = b then .isTrue (by rw [h]) else .isFalse (by simp [h])
  | .error _, .ok _ => .isFalse (by simp)
  | .ok _, .error _ => .isFalse (by simp)

/-- `writeAST`: fail with the `"file %q already exists"` error when the
destination path exists; otherwise create it with the serialized tree.
`render` models `go/format.Node` on a whole file. -/
def writeAST (render : File → String) (path : Path) (source : File)
    (d : DiskState) : Except PipelineError DiskState :=
  if d.pathExists path then .error (.destinationExists path)
  else .ok (d.create path (render source))

/-- `copyUnmodified`: for an `http.Dir` source, symlink
`filepath.Join(string(realFS), loadPath)` to the destination (failing
when the destination exists); otherwise open the source and `os.Create`
the destination, copying the bytes. -/
def copyUnmodified (fs : LoadFS) (loadPath writePath : Path)
    (d : DiskState) : Except PipelineError DiskState :=
  if fs.isRealDir then
    match d.symlink (fs.realDirPath ++ "/" ++ loadPath) writePath with
    | none => .error (.symlinkFailed writePath)
    | some d2 => .ok d2
  else
    match fs.contents loadPath with
    | none => .error .loadFailed
    | some content => .ok (d.create writePath content)

/-- `processSource`: load and parse the source, run the transformer,
then fast-copy when unchanged or serialize when changed.  `parse`
models `go/parser.ParseFile`; a `none` result of the transformer is the
propagated panic. -/
def processSource (parse : String → Option File) (render : File → String)
    (fs : LoadFS) (loadPath writePath : Path) (transform : AstTransformer)
    (d : DiskState) : Option (Except PipelineError DiskState) :=
  match fs.contents loadPath with
  | none => some (.error .loadFailed)
  | some text =>
    match parse text with
    | none => some (.error .loadFailed)
    | some source =>
      match transform source with
      | none => none
      | some (source2, changed) =>
        if changed then some (writeAST render writePath source2 d)
        else some (copyUnmodified fs loadPath writePath d)

/-! ### Statement-side notions

Definitions below are used only to state properties; they are not part
of the embedded program. -/

/-- Modelled from the spec: the placeholder comment text format the
specification asserts, `// <K> <N> — <marker> replacement at
<file>:<line>:<column>` with the GopherJS marker. -/
def claimedPlaceholderText (K N posStr : String) : String :=
  "// " ++ K ++ " " ++ N ++ " — GopherJS replacement at " ++ posStr

/-- Number of individually prunable members a spec contributes: one per
name of a value binding, one per type spec. -/
def Spec.memberCount : Spec → Nat
  | .importSpec _ => 0
  | .valueSpec s => s.names.length
  | .typeSpec _ => 1

/-- Every member of the spec (and at least one) has its key in the
filter's table. -/
def SymbolFilter.specAllMatched (sf : SymbolFilter) (f : File) : Spec → Bool
  | .importSpec _ => false
  | .valueSpec s => !s.names.isEmpty && s.names.all (fun n => sf.hits f n)
  | .typeSpec s => (lookupKey sf.willPrune (SymbolFilter.keyType f s)).isSome

/-- The symbol keys `Prune` checks against the table inside one spec of
a non-import declaration group. -/
def Spec.keysOf (f : File) : Spec → List String
  | .importSpec _ => []
  | .valueSpec s => s.names.map (fun n => SymbolFilter.keyIdent f n.name)
  | .typeSpec s => [SymbolFilter.keyType f s]

/-- The symbol keys `Prune` checks for one top-level declaration
(`none` when the key computation panics). -/
def Decl.keysOf (f : File) : Decl → Option (List String)
  | .gen g =>
    if g.tok = Tok.importTok then some []
    else some (g.specs.flatMap (Spec.keysOf f))
  | .func d => (SymbolFilter.keyFunc f d).map (fun k => [k])

/-- The import spec a spec carries, when it is one. -/
def Spec.importOf : Spec → Option ImportSpec
  | .importSpec s => some s
  | _ => none

/-- The import specs of one declaration. -/
def Decl.importSpecsOf : Decl → List ImportSpec
  | .gen g => g.specs.filterMap Spec.importOf
  | .func _ => []

/-- All import specs of a file, in source order. -/
def File.importSpecsOf (f : File) : List ImportSpec :=
  f.decls.flatMap Decl.importSpecsOf

/-! ### Concrete inputs used by witnesses and counterexamples -/

/-- A trivial parsed file. -/
def fileTrivial : File := { pkgName := "x", decls := [], comments := [] }

/-- A virtual (non-`http.Dir`) source filesystem holding one file. -/
def lfsVirtualEx : LoadFS :=
  { isRealDir := false, realDirPath := "",
    contents := fun p => if p = "in.go" then some "package x" else none }

/-- A parser stub mapping the example source to the trivial file. -/
def parseEx : String → Option File :=
  fun s => if s = "package x" then some fileTrivial else none

/-- A renderer stub. -/
def renderEx : File → String := fun f => "package " ++ f.pkgName

/-- A destination state in which the output path already exists. -/
def diskWithOut : DiskState := { files := [("out.go", .regular "old")] }

/-- Filter pruning `example.SomeFunc`, rendering every position as
`overlay.go:2:5`. -/
def sfFuncEx : SymbolFilter :=
  { fileSet := some (fun _ => "overlay.go:2:5"),
    willPrune := [("example.SomeFunc", 10)] }

/-- `package example` containing only `func SomeFunc() {}`. -/
def fileFuncEx : File :=
  { pkgName := "example",
    decls := [.func { name := "SomeFunc", recv := none,
                      ftype := { params := [], results := [] }, pos := 20 }],
    comments := [] }

/-- A method declaration whose receiver type is an index expression
(`func (T[P]) M()`), i.e. not an identifier and not a pointer to one. -/
def badRecvDecl : FuncDecl :=
  { name := "M", recv := some [{ names := [], type := .other "T[P]" }],
    ftype := { params := [], results := [] }, pos := 5 }

/-- A file containing the generic-receiver method above. -/
def fileBadRecv : File :=
  { pkgName := "x", decls := [.func badRecvDecl], comments := [] }

/-- An empty symbol filter. -/
def sfEmptyEx : SymbolFilter := { fileSet := none, willPrune := [] }

/-- A non-empty symbol filter whose single key is unrelated. -/
def sfUnrelatedEx : SymbolFilter :=
  { fileSet := none, willPrune := [("y.Z", 3)] }

/-- A file with one import declaration and one function declaration. -/
def fileWithImportEx : File :=
  { pkgName := "x",
    decls := [.gen { tok := .importTok, pos := 1,
                     specs := [.importSpec { name := none, pathValue := "\"fmt\"" }] },
              .func { name := "F", recv := none,
                      ftype := { params := [], results := [] }, pos := 9 }],
    comments := [] }

/-- Filter pruning `x.F` (no file set). -/
def sfPruneFEx : SymbolFilter := { fileSet := none, willPrune := [("x.F", 2)] }

/-- The result of pruning `x.F` out of `fileWithImportEx`. -/
def filePrunedImportEx : File :=
  { pkgName := "x",
    decls := [.gen { tok := .importTok, pos := 1,
                     specs := [.importSpec { name := none, pathValue := "\"fmt\"" }] }],
    comments := [{ slash := 9, text := "// func F() — GopherJS replacement at -" }] }

/-- Filter pruning `p.a`, rendering every position as `overlay.go:3:4`. -/
def sfValEx : SymbolFilter :=
  { fileSet := some (fun _ => "overlay.go:3:4"), willPrune := [("p.a", 7)] }

/-- Filter pruning `x.V1` and `x.V2`. -/
def sfGroupEx : SymbolFilter :=
  { fileSet := none, willPrune := [("x.V1", 11), ("x.V2", 12)] }

/-- The declaration group `var (V1 int; V2 int)`. -/
def genVarGroupEx : GenDecl :=
  { tok := .varTok, pos := 40,
    specs := [.valueSpec { names := [⟨"V1", 44⟩], type := some (.ident "int"),
                           values := [] },
              .valueSpec { names := [⟨"V2", 52⟩], type := some (.ident "int"),
                           values := [] }] }

/-- Filter pruning only `x.V1`. -/
def sfMultiEx : SymbolFilter := { fileSet := none, willPrune := [("x.V1", 10)] }

/-- The multi-name binding `V1, V2 = F()`. -/
def vsMultiEx : ValueSpec :=
  { names := [⟨"V1", 61⟩, ⟨"V2", 65⟩], type := none, values := [.other "F()"] }

/-! ### Helper lemmas -/

theorem lookupKey_nil (k : String) : lookupKey [] k = none := rfl

theorem willPrune_eq_nil_of_isEmpty {sf : SymbolFilter} (h : sf.IsEmpty = true) :
    sf.willPrune = [] := by
  have := of_decide_eq_true h
  exact List.length_eq_zero.mp this

theorem isEmpty_false_of_lookup_some {sf : SymbolFilter} {k : String} {p : Pos}
    (h : lookupKey sf.willPrune k = some p) : sf.IsEmpty = false := by
  by_contra hne
  have he : sf.IsEmpty = true := by
    cases hb : sf.IsEmpty
    · exact absurd hb hne
    · rfl
  rw [willPrune_eq_nil_of_isEmpty he, lookupKey_nil] at h
  exact Option.noConfusion h

theorem hits_false_of_isEmpty {sf : SymbolFilter} (f : File) (n : Ident)
    (h : sf.IsEmpty = true) : sf.hits f n = false := by
  simp [SymbolFilter.hits, willPrune_eq_nil_of_isEmpty h, lookupKey_nil]

theorem pruneNames_fst (sf : SymbolFilter) (f : File) (tok : Tok) (ppos : Pos) :
    ∀ ns : List Ident,
      (pruneNames sf f tok ppos ns).1 =
        ns.map (fun n => if sf.hits f n then Ident.mk "_" 0 else n) := by
  intro ns
  induction ns with
  | nil => rfl
  | cons n rest ih =>
    cases h : lookupKey sf.willPrune (SymbolFilter.keyIdent f n.name) <;>
      simp [pruneNames, h, SymbolFilter.hits, ih]

theorem pruneNames_count (sf : SymbolFilter) (f : File) (tok : Tok) (ppos : Pos) :
    ∀ ns : List Ident,
      (pruneNames sf f tok ppos ns).2.2 = ns.countP (fun n => sf.hits f n) := by
  intro ns
  induction ns with
  | nil => rfl
  | cons n rest ih =>
    cases h : lookupKey sf.willPrune (SymbolFilter.keyIdent f n.name) <;>
      simp [pruneNames, h, SymbolFilter.hits, ih, List.countP_cons]

theorem pruneNames_comments_length (sf : SymbolFilter) (f : File) (tok : Tok) (ppos : Pos) :
    ∀ ns : List Ident,
      (pruneNames sf f tok ppos ns).2.1.length = ns.countP (fun n => sf.hits f n) := by
  intro ns
  induction ns with
  | nil => rfl
  | cons n rest ih =>
    cases h : lookupKey sf.willPrune (SymbolFilter.keyIdent f n.name) <;>
      simp [pruneNames, h, SymbolFilter.hits, ih, List.countP_cons]

theorem foldl_append_eq_flatten {α β : Type} (g : α → List β) :
    ∀ (l : List α) (init : List β),
      l.foldl (fun acc r => acc ++ g r) init = init ++ (l.map g).flatten := by
  intro l
  induction l with
  | nil => intro init; simp
  | cons a rest ih => intro init; simp [ih, List.append_assoc]

theorem foldlM_none_of_mem {α β : Type} (step : β → α → Option β) {l : List α} {a : α}
    (ha : a ∈ l) (h : ∀ acc, step acc a = none) :
    ∀ init, l.foldlM step init = none := by
  induction l with
  | nil => cases ha
  | cons b rest ih =>
    intro init
    rcases List.mem_cons.mp ha with hb | hb
    · subst hb
      simp [List.foldlM_cons, h init]
    · cases hs : step init b with
      | none => simp [List.foldlM_cons, hs]
      | some acc2 => simp [List.foldlM_cons, hs, ih hb]

theorem any_flatMap {α β : Type} (g : α → List β) (p : β → Bool) :
    ∀ l : List α, (l.flatMap g).any p = l.any (fun a => (g a).any p) := by
  intro l
  induction l with
  | nil => rfl
  | cons a rest ih => simp [List.flatMap_cons, List.any_append, ih]

/-! ### Claim theorems -/

/-- C1: the spec says `T1.then(T2)` always invokes both transformers and
never short-circuits.  The code disagrees: Go's `||` in
`modified = modified || right(fset, f)` short-circuits, so when the left
transformer reports a change the right transformer is never invoked.
Here the chain of two modifying transformers returns the left
transformer's output unchanged, although invoking the right transformer
on that tree would have changed it further. -/
theorem chain_skips_right_when_left_modified :
    AstTransformer.chain
        (fun f => some ({ f with pkgName := f.pkgName ++ "1" }, true))
        (fun f => some ({ f with pkgName := f.pkgName ++ "2" }, true))
        fileTrivial =
      some ({ pkgName := "x1", decls := [], comments := [] }, true) ∧
    (fun (f : File) => some ({ f with pkgName := f.pkgName ++ "2" }, true))
        { pkgName := "x1", decls := [], comments := [] } =
      some (({ pkgName := "x12", decls := [], comments := [] } : File), true) ∧
    ({ pkgName := "x1", decls := [], comments := [] } : File) ≠
      { pkgName := "x12", decls := [], comments := [] } := by
  refine ⟨rfl, rfl, ?_⟩
  decide

/-- C7: the Symbol Key of a method unwraps a pointer receiver to its
underlying named type: `func (T) M()` and `func (*T) M()` in package
`pkg` both key as `pkg.T.M`, and `Collect` produces the same table for
either receiver form. -/
theorem method_key_pointer_unwrapped
    (pkg M T : String) (rnames : List String) (rest : List Field) (ft : FuncType)
    (p : Pos) (cm : List Comment) (tbl : List (String × Pos)) (fsOpt : Option FileSet) :
    SymbolFilter.keyFunc ⟨pkg, [], cm⟩
        ⟨M, some (⟨rnames, .ident T⟩ :: rest), ft, p⟩ =
      some (pkg ++ "." ++ (T ++ "." ++ M)) ∧
    SymbolFilter.keyFunc ⟨pkg, [], cm⟩
        ⟨M, some (⟨rnames, .star (.ident T)⟩ :: rest), ft, p⟩ =
      some (pkg ++ "." ++ (T ++ "." ++ M)) ∧
    SymbolFilter.Collect ⟨fsOpt, tbl⟩
        ⟨pkg, [.func ⟨M, some (⟨rnames, .ident T⟩ :: rest), ft, p⟩], cm⟩ =
      SymbolFilter.Collect ⟨fsOpt, tbl⟩
        ⟨pkg, [.func ⟨M, some (⟨rnames, .star (.ident T)⟩ :: rest), ft, p⟩], cm⟩ := by
  refine ⟨rfl, rfl, ?_⟩
  simp [SymbolFilter.Collect, collectDecl, SymbolFilter.keyFunc, SymbolFilter.funcName]

/-- C9 counterexample: the claim asserts that Collect AND Prune panic on
any file containing a method whose receiver type is not an identifier
nor a pointer to one.  Prune with an empty symbol table does not: it
returns `changed = false` through the `IsEmpty` fast path without ever
reaching the panicking type assertion. -/
theorem prune_returns_on_generic_receiver_empty_table :
    SymbolFilter.funcName badRecvDecl = none ∧
    sfEmptyEx.Prune fileBadRecv = some (fileBadRecv, false) := by
  constructor
  · rfl
  · rfl

/-- C9 (amended): `Collect` always panics on a file containing a method
declaration whose (pointer-unwrapped) receiver type is not a plain
identifier, and `Prune` panics on such a file whenever its symbol table
is non-empty (with an empty table the `IsEmpty` fast path returns
first).  The `augmenter` variant's key computation fails identically. -/
theorem collect_prune_panic_on_unsupported_receiver
    (sf : SymbolFilter) (f : File) (d : FuncDecl)
    (hmem : Decl.func d ∈ f.decls) (hbad : SymbolFilter.funcName d = none) :
    sf.Collect f = none ∧
    (sf.IsEmpty = false → sf.Prune f = none) ∧
    Augmenter.funcName d = none := by
  refine ⟨?_, ?_, ?_⟩
  · have hstep : ∀ m : List (String × Pos), collectDecl f m (Decl.func d) = none := by
      intro m
      simp [collectDecl, SymbolFilter.keyFunc, hbad]
    unfold SymbolFilter.Collect
    rw [foldlM_none_of_mem (collectDecl f) hmem hstep sf.willPrune]
    rfl
  · intro hne
    have hstep : ∀ acc, sf.pruneStep f acc (Decl.func d) = none := by
      intro acc
      simp [SymbolFilter.pruneStep, SymbolFilter.pruneDecl, SymbolFilter.keyFunc, hbad]
    unfold SymbolFilter.Prune
    rw [if_neg (by simp [hne]),
        foldlM_none_of_mem (sf.pruneStep f) hmem hstep ([], [], false)]
    rfl
  · cases d with
    | mk name recv ftype pos =>
      cases recv with
      | none => exact hbad
      | some l =>
        cases l with
        | nil => exact hbad
        | cons r rest =>
          simp only [SymbolFilter.funcName] at hbad
          simp only [Augmenter.funcName]
          exact hbad

/-- C9 witness: a non-empty filter on the generic-receiver file makes
both `Collect` and `Prune` panic. -/
theorem collect_prune_panic_on_unsupported_receiver_witness :
    sfUnrelatedEx.Collect fileBadRecv = none ∧
    sfUnrelatedEx.Prune fileBadRecv = none := by
  have h := collect_prune_panic_on_unsupported_receiver sfUnrelatedEx fileBadRecv
    badRecvDecl (by simp [fileBadRecv]) (by rfl)
  exact ⟨h.1, h.2.1 (by rfl)⟩

/-- C2 counterexample: the claim says the driver fails with a
destination-exists error and never overwrites on BOTH the changed and
the unchanged path.  On the unchanged fast-copy path over a virtual
(non-`http.Dir`) source there is no existence check: `os.Create`
silently truncates, so processing succeeds and the pre-existing
destination file is overwritten. -/
theorem pipeline_fast_copy_overwrites_existing_destination :
    diskWithOut.pathExists "out.go" = true ∧
    processSource parseEx renderEx lfsVirtualEx "in.go" "out.go"
        identityTransformer diskWithOut =
      some (.ok ⟨[("out.go", .regular "package x")]⟩) ∧
    (⟨[("out.go", .regular "package x")]⟩ : DiskState) ≠ diskWithOut := by
  refine ⟨by decide, by decide, by decide⟩

/-- C2 (amended): only the changed (serialize) path checks the
destination: when the transformer reports a change, `processSource`
fails with the destination-exists error and overwrites nothing.  On the
unchanged fast-copy path there is no such check: over a real-filesystem
source the symlink call fails because the destination exists (leaving
the file intact), but over a virtual source the existing destination is
silently overwritten with the source bytes and the call succeeds. -/
theorem processSource_destination_exists
    (parse : String → Option File) (render : File → String) (lfs : LoadFS)
    (loadPath writePath : Path) (t : AstTransformer) (d : DiskState)
    (text : String) (f f2 : File) (ch : Bool)
    (hload : lfs.contents loadPath = some text)
    (hparse : parse text = some f)
    (ht : t f = some (f2, ch))
    (hexists : d.pathExists writePath = true) :
    (ch = true →
      processSource parse render lfs loadPath writePath t d =
        some (.error (.destinationExists writePath))) ∧
    (ch = false → lfs.isRealDir = true →
      processSource parse render lfs loadPath writePath t d =
        some (.error (.symlinkFailed writePath))) ∧
    (ch = false → lfs.isRealDir = false →
      processSource parse render lfs loadPath writePath t d =
        some (.ok (d.create writePath text))) := by
  refine ⟨?_, ?_, ?_⟩
  · intro hch
    subst hch
    simp [processSource, hload, hparse, ht, writeAST, hexists]
  · intro hch hreal
    subst hch
    simp [processSource, hload, hparse, ht, copyUnmodified, hreal,
      DiskState.symlink, hexists]
  · intro hch hreal
    subst hch
    simp [processSource, hload, hparse, ht, copyUnmodified, hreal]

/-- C2 witness: with a changed transform and an existing destination,
the driver reports the destination-exists error. -/
theorem processSource_destination_exists_witness :
    diskWithOut.pathExists "out.go" = true ∧
    processSource parseEx renderEx lfsVirtualEx "in.go" "out.go"
        (fun f => some (f, true)) diskWithOut =
      some (.error (.destinationExists "out.go")) := by
  refine ⟨by decide, ?_⟩
  exact (processSource_destination_exists parseEx renderEx lfsVirtualEx "in.go" "out.go"
      (fun f => some (f, true)) diskWithOut "package x" fileTrivial fileTrivial true
      (by decide) (by decide) rfl (by decide)).1 rfl

theorem pruneSpec_importOf (sf : SymbolFilter) (f : File) (tok : Tok) (ppos : Pos)
    (sp : Spec) :
    ((sf.pruneSpec f tok ppos sp).1.bind Spec.importOf) = Spec.importOf sp := by
  cases sp with
  | importSpec s => rfl
  | valueSpec s =>
    simp only [SymbolFilter.pruneSpec]
    by_cases h : (pruneNames sf f tok ppos s.names).2.2 = s.names.length <;>
      simp [h, Spec.importOf]
  | typeSpec s =>
    cases h : lookupKey sf.willPrune (SymbolFilter.keyType f s) <;>
      simp [SymbolFilter.pruneSpec, h, Spec.importOf]

theorem pruneSpecs_filterMap_importOf (sf : SymbolFilter) (f : File) (tok : Tok)
    (ppos : Pos) :
    ∀ specs : List Spec,
      ((specs.map (sf.pruneSpec f tok ppos)).filterMap (fun r => r.1)).filterMap
          Spec.importOf =
        specs.filterMap Spec.importOf := by
  intro specs
  induction specs with
  | nil => rfl
  | cons sp rest ih =>
    have h := pruneSpec_importOf sf f tok ppos sp
    cases hsp : (sf.pruneSpec f tok ppos sp).1 with
    | none =>
      rw [hsp] at h
      simp only [Option.none_bind] at h
      simp only [List.map_cons, List.filterMap_cons, hsp, ← h]
      exact ih
    | some sp2 =>
      rw [hsp] at h
      simp only [Option.some_bind] at h
      simp only [List.map_cons, List.filterMap_cons, hsp, ← h]
      cases hio : Spec.importOf sp2 with
      | none => simp only [hio]; exact ih
      | some i => simp only [hio]; exact congrArg (List.cons i) ih

theorem pruneDecl_importSpecs_map (sf : SymbolFilter) (f : File) (d : Decl) :
    (sf.pruneDecl f d).map (fun r => r.1.elim [] Decl.importSpecsOf) =
      (sf.pruneDecl f d).map (fun _ => Decl.importSpecsOf d) := by
  cases d with
  | func fd =>
    cases hk : SymbolFilter.keyFunc f fd with
    | none => simp [SymbolFilter.pruneDecl, hk]
    | some k =>
      cases hl : lookupKey sf.willPrune k with
      | some pos => simp [SymbolFilter.pruneDecl, hk, hl, Decl.importSpecsOf]
      | none => simp [SymbolFilter.pruneDecl, hk, hl, Decl.importSpecsOf]
  | gen g =>
    by_cases ht : g.tok = Tok.importTok
    · simp [SymbolFilter.pruneDecl, ht]
    · have hfil := pruneSpecs_filterMap_importOf sf f g.tok g.pos g.specs
      rw [List.filterMap_map] at hfil
      by_cases hall : ∀ sp ∈ g.specs, (sf.pruneSpec f g.tok g.pos sp).1 = none
      · have hnil :
            g.specs.filterMap ((fun r => r.1) ∘ sf.pruneSpec f g.tok g.pos) = [] := by
          apply List.filterMap_eq_nil_iff.mpr
          intro sp hsp
          exact hall sp hsp
        rw [hnil] at hfil
        simp [SymbolFilter.pruneDecl, ht, Decl.importSpecsOf, ← hfil]
        rw [if_pos hall]
        rfl
      · simp [SymbolFilter.pruneDecl, ht, Decl.importSpecsOf, hall, hfil]

theorem prune_fold_importSpecs (sf : SymbolFilter) (f : File) :
    ∀ (decls : List Decl) (acc res : List Decl × List Comment × Bool),
      decls.foldlM (sf.pruneStep f) acc = some res →
      res.1.flatMap Decl.importSpecsOf =
        acc.1.flatMap Decl.importSpecsOf ++ decls.flatMap Decl.importSpecsOf := by
  intro decls
  induction decls with
  | nil =>
    intro acc res h
    simp only [List.foldlM_nil, Option.pure_def, Option.some.injEq] at h
    subst h
    simp
  | cons d rest ih =>
    intro acc res h
    rw [List.foldlM_cons] at h
    cases hd : sf.pruneStep f acc d with
    | none => rw [hd] at h; exact absurd h (by simp)
    | some acc2 =>
      rw [hd] at h
      have h2 : rest.foldlM (sf.pruneStep f) acc2 = some res := h
      have hrec := ih acc2 res h2
      cases hr : sf.pruneDecl f d with
      | none => simp [SymbolFilter.pruneStep, hr] at hd
      | some r =>
        have hacc2 : acc2 = (acc.1 ++ r.1.toList, acc.2.1 ++ r.2.1, acc.2.2 || r.2.2) := by
          simp [SymbolFilter.pruneStep, hr] at hd
          exact hd.symm
        have hdecl := pruneDecl_importSpecs_map sf f d
        rw [hr] at hdecl
        simp only [Option.map_some'] at hdecl
        have hone : r.1.toList.flatMap Decl.importSpecsOf = Decl.importSpecsOf d := by
          have : r.1.elim [] Decl.importSpecsOf = Decl.importSpecsOf d :=
            Option.some.inj hdecl
          cases hk : r.1 with
          | none => rw [hk] at this; simpa using this
          | some dd => rw [hk] at this; simpa using this
        rw [hrec, hacc2]
        simp [List.flatMap_append, hone, List.append_assoc]

/-- C10: `Prune` never touches import specs: `visitNode` refuses to
descend into `token.IMPORT` declaration groups (and `astutil.Apply`
then skips the post pass on them), so every import spec present before
pruning is present, unchanged and in order, after pruning. -/
theorem prune_preserves_import_specs (sf : SymbolFilter) (f f2 : File) (ch : Bool)
    (h : sf.Prune f = some (f2, ch)) :
    File.importSpecsOf f2 = File.importSpecsOf f := by
  unfold SymbolFilter.Prune at h
  by_cases he : sf.IsEmpty
  · rw [if_pos he] at h
    simp only [Option.some.injEq, Prod.mk.injEq] at h
    rw [← h.1]
  · rw [if_neg he] at h
    cases hr : f.decls.foldlM (sf.pruneStep f) ([], [], false) with
    | none => rw [hr] at h; exact Option.noConfusion h
    | some r =>
      rw [hr] at h
      simp only [Option.map_some', Option.some.injEq, Prod.mk.injEq] at h
      have hfold := prune_fold_importSpecs sf f f.decls ([], [], false) r hr
      have hdecls : f2.decls = r.1 := by rw [← h.1]
      unfold File.importSpecsOf
      rw [hdecls, hfold]
      simp

/-- C10 witness: pruning `x.F` out of a file with an import leaves
the import spec list identical. -/
theorem prune_preserves_import_specs_witness :
    File.importSpecsOf filePrunedImportEx = File.importSpecsOf fileWithImportEx :=
  prune_preserves_import_specs sfPruneFEx fileWithImportEx filePrunedImportEx true
    (by decide)

theorem pruneDecl_gen (sf : SymbolFilter) (f : File) (g : GenDecl)
    (ht : g.tok ≠ Tok.importTok) :
    sf.pruneDecl f (.gen g) =
      some
        (if ((g.specs.map (sf.pruneSpec f g.tok g.pos)).filterMap
                (fun r => r.1)).isEmpty
          then none
          else some (.gen { g with
            specs := (g.specs.map (sf.pruneSpec f g.tok g.pos)).filterMap
              (fun r => r.1) }),
         (g.specs.map (sf.pruneSpec f g.tok g.pos)).foldl
           (fun acc r => acc ++ r.2.1) [],
         (g.specs.map (sf.pruneSpec f g.tok g.pos)).any (fun r => r.2.2)) := by
  have h0 : sf.pruneDecl f (.gen g) =
      if g.tok = Tok.importTok then some (some (.gen g), [], false)
      else
        some
          (if ((g.specs.map (sf.pruneSpec f g.tok g.pos)).filterMap
                  (fun r => r.1)).isEmpty
            then none
            else some (.gen { g with
              specs := (g.specs.map (sf.pruneSpec f g.tok g.pos)).filterMap
                (fun r => r.1) }),
           (g.specs.map (sf.pruneSpec f g.tok g.pos)).foldl
             (fun acc r => acc ++ r.2.1) [],
           (g.specs.map (sf.pruneSpec f g.tok g.pos)).any (fun r => r.2.2)) := rfl
  rw [h0, if_neg ht]

theorem prune_single_gen (sf : SymbolFilter) (pkg : String) (g : GenDecl)
    (cmts : List Comment) (r : Option Decl × List Comment × Bool)
    (hne : sf.IsEmpty = false)
    (hres : sf.pruneDecl ⟨pkg, [.gen g], cmts⟩ (.gen g) = some r) :
    sf.Prune ⟨pkg, [.gen g], cmts⟩ =
      some (⟨pkg, r.1.toList, cmts ++ r.2.1⟩, r.2.2) := by
  simp [SymbolFilter.Prune, hne, SymbolFilter.pruneStep, hres]

theorem pruneSpec_all_matched_proj (sf : SymbolFilter) (f : File) (tok : Tok)
    (ppos : Pos) (sp : Spec) (h : sf.specAllMatched f sp = true) :
    (sf.pruneSpec f tok ppos sp).1 = none ∧
    (sf.pruneSpec f tok ppos sp).2.2 = true ∧
    (sf.pruneSpec f tok ppos sp).2.1.length = sp.memberCount := by
  cases sp with
  | importSpec s => simp [SymbolFilter.specAllMatched] at h
  | typeSpec s =>
    simp only [SymbolFilter.specAllMatched] at h
    obtain ⟨pos, hp⟩ := Option.isSome_iff_exists.mp h
    simp [SymbolFilter.pruneSpec, hp, Spec.memberCount]
  | valueSpec s =>
    simp only [SymbolFilter.specAllMatched, Bool.and_eq_true, Bool.not_eq_eq_eq_not,
      Bool.not_true, List.all_eq_true] at h
    obtain ⟨hemp, hall⟩ := h
    have hne : s.names ≠ [] := by
      cases hsn : s.names
      · rw [hsn] at hemp; simp [List.isEmpty] at hemp
      · exact List.cons_ne_nil _ _
    have hcnt : s.names.countP (fun n => sf.hits f n) = s.names.length := by
      rw [List.countP_eq_length]
      intro a ha
      exact hall a ha
    have hlen : s.names.length ≠ 0 := by
      intro h0
      exact hne (List.length_eq_zero.mp h0)
    refine ⟨?_, ?_, ?_⟩
    · simp only [SymbolFilter.pruneSpec, pruneNames_count, hcnt]
      simp
    · simp only [SymbolFilter.pruneSpec, pruneNames_count, hcnt]
      simp [hlen]
    · simp only [SymbolFilter.pruneSpec, pruneNames_comments_length, hcnt,
        Spec.memberCount]

theorem specAllMatched_isEmpty_false (sf : SymbolFilter) (f : File) (sp : Spec)
    (h : sf.specAllMatched f sp = true) : sf.IsEmpty = false := by
  cases hb : sf.IsEmpty
  · rfl
  · exfalso
    have hw := willPrune_eq_nil_of_isEmpty hb
    cases sp with
    | importSpec s => simp [SymbolFilter.specAllMatched] at h
    | typeSpec s =>
      simp only [SymbolFilter.specAllMatched] at h
      rw [hw] at h
      simp [lookupKey] at h
    | valueSpec s =>
      simp only [SymbolFilter.specAllMatched, Bool.and_eq_true, Bool.not_eq_eq_eq_not,
        Bool.not_true, List.all_eq_true] at h
      obtain ⟨hemp, hall⟩ := h
      cases hsn : s.names with
      | nil => rw [hsn] at hemp; simp [List.isEmpty] at hemp
      | cons n rest =>
        have hm := hall n (by rw [hsn]; exact List.mem_cons_self n rest)
        rw [hits_false_of_isEmpty f n hb] at hm
        exact Bool.noConfusion hm

theorem pruneDecl_all_matched (sf : SymbolFilter) (f : File) (g : GenDecl)
    (ht : g.tok ≠ Tok.importTok) (hne : g.specs ≠ [])
    (hall : ∀ sp ∈ g.specs, sf.specAllMatched f sp = true) :
    ∃ cs, sf.pruneDecl f (.gen g) = some (none, cs, true) ∧
      cs.length = (g.specs.map Spec.memberCount).sum := by
  have hgen := pruneDecl_gen sf f g ht
  have hproj : ∀ sp ∈ g.specs,
      (sf.pruneSpec f g.tok g.pos sp).1 = none ∧
      (sf.pruneSpec f g.tok g.pos sp).2.2 = true ∧
      (sf.pruneSpec f g.tok g.pos sp).2.1.length = sp.memberCount := by
    intro sp hsp
    exact pruneSpec_all_matched_proj sf f g.tok g.pos sp (hall sp hsp)
  have hfil : (g.specs.map (sf.pruneSpec f g.tok g.pos)).filterMap
      (fun r => r.1) = [] := by
    apply List.filterMap_eq_nil_iff.mpr
    intro r hr
    obtain ⟨sp, hsp, rfl⟩ := List.mem_map.mp hr
    exact (hproj sp hsp).1
  have hany : (g.specs.map (sf.pruneSpec f g.tok g.pos)).any (fun r => r.2.2) = true := by
    apply List.any_eq_true.mpr
    obtain ⟨sp0, hsp0⟩ := List.exists_mem_of_ne_nil g.specs hne
    exact ⟨sf.pruneSpec f g.tok g.pos sp0, List.mem_map.mpr ⟨sp0, hsp0, rfl⟩,
      (hproj sp0 hsp0).2.1⟩
  refine ⟨(g.specs.map (sf.pruneSpec f g.tok g.pos)).foldl
      (fun acc r => acc ++ r.2.1) [], ?_, ?_⟩
  · rw [hgen, hfil, hany]
    simp
  · rw [foldl_append_eq_flatten
      (fun (r : Option Spec × List Comment × Bool) => r.2.1)
      (g.specs.map (sf.pruneSpec f g.tok g.pos)) []]
    simp only [List.nil_append, List.length_flatten, List.map_map]
    apply congrArg List.sum
    apply List.map_congr_left
    intro sp hsp
    exact (hproj sp hsp).2.2

/-- C5: pruning every member of a non-import declaration group deletes
the whole group from the tree (the `pruneEmptyDecls` post pass removes
the emptied container), leaving only the placeholder comments — one per
former member — appended to the file's comment list. -/
theorem prune_removes_emptied_group (sf : SymbolFilter) (pkg : String) (g : GenDecl)
    (cmts : List Comment) (ht : g.tok ≠ Tok.importTok) (hne : g.specs ≠ [])
    (hall : ∀ sp ∈ g.specs, sf.specAllMatched ⟨pkg, [.gen g], cmts⟩ sp = true) :
    ∃ cs, sf.Prune ⟨pkg, [.gen g], cmts⟩ = some (⟨pkg, [], cmts ++ cs⟩, true) ∧
      cs.length = (g.specs.map Spec.memberCount).sum := by
  obtain ⟨sp0, hsp0⟩ := List.exists_mem_of_ne_nil g.specs hne
  have hempty : sf.IsEmpty = false :=
    specAllMatched_isEmpty_false sf ⟨pkg, [.gen g], cmts⟩ sp0 (hall sp0 hsp0)
  obtain ⟨cs, hdecl, hlen⟩ :=
    pruneDecl_all_matched sf ⟨pkg, [.gen g], cmts⟩ g ht hne hall
  refine ⟨cs, ?_, hlen⟩
  have := prune_single_gen sf pkg g cmts (none, cs, true) hempty hdecl
  simpa using this

/-- C5 witness: pruning both members of `var (V1 int; V2 int)` removes
the whole block and leaves two placeholder comments. -/
theorem prune_removes_emptied_group_witness :
    ∃ cs, sfGroupEx.Prune ⟨"x", [.gen genVarGroupEx], []⟩ =
        some (⟨"x", [], [] ++ cs⟩, true) ∧
      cs.length = (genVarGroupEx.specs.map Spec.memberCount).sum :=
  prune_removes_emptied_group sfGroupEx "x" genVarGroupEx []
    (by decide) (by decide) (by decide)

theorem pruneDecl_single_value (sf : SymbolFilter) (f : File) (tok : Tok)
    (gpos : Pos) (s : ValueSpec) (ht : tok ≠ Tok.importTok) :
    sf.pruneDecl f (.gen ⟨tok, gpos, [.valueSpec s]⟩) =
      some
        (if (pruneNames sf f tok gpos s.names).2.2 = s.names.length
          then none
          else some (.gen ⟨tok, gpos,
            [.valueSpec { s with names := (pruneNames sf f tok gpos s.names).1 }]⟩),
         (pruneNames sf f tok gpos s.names).2.1,
         (pruneNames sf f tok gpos s.names).2.2 != 0) := by
  have hv : sf.pruneSpec f tok gpos (.valueSpec s) =
      (if (pruneNames sf f tok gpos s.names).2.2 = s.names.length then none
       else some (.valueSpec { s with names := (pruneNames sf f tok gpos s.names).1 }),
       (pruneNames sf f tok gpos s.names).2.1,
       (pruneNames sf f tok gpos s.names).2.2 != 0) := rfl
  by_cases hc : (pruneNames sf f tok gpos s.names).2.2 = s.names.length
  · rw [if_pos hc] at hv
    rw [if_pos hc, pruneDecl_gen sf f ⟨tok, gpos, [.valueSpec s]⟩ ht]
    simp [hv]
  · rw [if_neg hc] at hv
    rw [if_neg hc, pruneDecl_gen sf f ⟨tok, gpos, [.valueSpec s]⟩ ht]
    simp [hv]

/-- C3: a multi-name value binding is processed name by name: each name
whose key is in the table is replaced by a fresh `_` binding (its
positional slot is never deleted, preserving initializer arity) and one
placeholder comment is emitted per matched name; when every name of the
binding matches, the whole statement is deleted instead, again with one
placeholder per name. -/
theorem prune_value_binding_arity (sf : SymbolFilter) (pkg : String) (tok : Tok)
    (gpos : Pos) (s : ValueSpec) (cmts : List Comment) (f0 : File)
    (hf0 : f0 = ⟨pkg, [.gen ⟨tok, gpos, [.valueSpec s]⟩], cmts⟩)
    (ht : tok ≠ Tok.importTok) (hne : s.names ≠ []) :
    (s.names.countP (fun n => sf.hits f0 n) < s.names.length →
      ∃ cs,
        sf.Prune f0 =
          some
            (⟨pkg,
              [.gen ⟨tok, gpos,
                [.valueSpec
                  ⟨s.names.map
                      (fun n => if sf.hits f0 n then Ident.mk "_" 0 else n),
                    s.type, s.values⟩]⟩],
              cmts ++ cs⟩,
             s.names.countP (fun n => sf.hits f0 n) != 0) ∧
        cs.length = s.names.countP (fun n => sf.hits f0 n)) ∧
    (s.names.countP (fun n => sf.hits f0 n) = s.names.length →
      ∃ cs,
        sf.Prune f0 = some (⟨pkg, [], cmts ++ cs⟩, true) ∧
        cs.length = s.names.length) := by
  subst hf0
  set f0 : File := ⟨pkg, [.gen ⟨tok, gpos, [.valueSpec s]⟩], cmts⟩ with hf0
  by_cases hemp : sf.IsEmpty = true
  · have hhits : ∀ n, sf.hits f0 n = false := fun n => hits_false_of_isEmpty f0 n hemp
    have hm0 : s.names.countP (fun n => sf.hits f0 n) = 0 := by
      apply List.countP_eq_zero.mpr
      intro a ha
      simp [hhits a]
    constructor
    · intro hlt
      refine ⟨[], ?_, by simp [hm0]⟩
      have hPr : sf.Prune f0 = some (f0, false) := by
        simp [SymbolFilter.Prune, hemp]
      have hmap : s.names.map
          (fun n => if sf.hits f0 n then Ident.mk "_" 0 else n) = s.names := by
        calc s.names.map (fun n => if sf.hits f0 n then Ident.mk "_" 0 else n)
            = s.names.map id := List.map_congr_left (by intro a ha; simp [hhits a])
          _ = s.names := List.map_id s.names
      rw [hPr, hm0, hmap]
      simp [hf0]
    · intro heq
      rw [hm0] at heq
      exact absurd (List.length_eq_zero.mp heq.symm) hne
  · have hempty : sf.IsEmpty = false := by
      cases hb : sf.IsEmpty
      · rfl
      · exact absurd hb hemp
    have h1 := pruneNames_fst sf f0 tok gpos s.names
    have h2 := pruneNames_count sf f0 tok gpos s.names
    have h3 := pruneNames_comments_length sf f0 tok gpos s.names
    have hsingle := pruneDecl_single_value sf f0 tok gpos s ht
    constructor
    · intro hlt
      have hcond : ¬ ((pruneNames sf f0 tok gpos s.names).2.2 = s.names.length) := by
        rw [h2]
        omega
      rw [if_neg hcond] at hsingle
      refine ⟨(pruneNames sf f0 tok gpos s.names).2.1, ?_, h3⟩
      have hrun := prune_single_gen sf pkg ⟨tok, gpos, [.valueSpec s]⟩ cmts
        (some (.gen ⟨tok, gpos,
          [.valueSpec { s with names := (pruneNames sf f0 tok gpos s.names).1 }]⟩),
         (pruneNames sf f0 tok gpos s.names).2.1,
         (pruneNames sf f0 tok gpos s.names).2.2 != 0) hempty hsingle
      rw [← hf0] at hrun
      rw [hrun]
      simp [h1, h2]
    · intro heq
      have hcond : (pruneNames sf f0 tok gpos s.names).2.2 = s.names.length := by
        rw [h2]
        exact heq
      rw [if_pos hcond] at hsingle
      have hlen0 : s.names.length ≠ 0 := by
        intro hz
        exact hne (List.length_eq_zero.mp hz)
      have hflag : ((pruneNames sf f0 tok gpos s.names).2.2 != 0) = true := by
        rw [hcond]
        simpa using hlen0
      rw [hflag] at hsingle
      refine ⟨(pruneNames sf f0 tok gpos s.names).2.1, ?_, by rw [h3]; exact heq⟩
      have hrun := prune_single_gen sf pkg ⟨tok, gpos, [.valueSpec s]⟩ cmts
        (none, (pruneNames sf f0 tok gpos s.names).2.1, true) hempty hsingle
      rw [← hf0] at hrun
      rw [hrun]
      simp

/-- C3 witness: pruning only `x.V1` out of `var V1, V2 = F()` blanks the
first slot; pruning both names deletes the statement. -/
theorem prune_value_binding_arity_witness :
    (∃ cs,
        sfMultiEx.Prune ⟨"x", [.gen ⟨.varTok, 60, [.valueSpec vsMultiEx]⟩], []⟩ =
          some
            (⟨"x",
              [.gen ⟨.varTok, 60,
                [.valueSpec
                  ⟨vsMultiEx.names.map
                      (fun n =>
                        if sfMultiEx.hits
                            ⟨"x", [.gen ⟨.varTok, 60, [.valueSpec vsMultiEx]⟩], []⟩ n
                        then Ident.mk "_" 0 else n),
                    vsMultiEx.type, vsMultiEx.values⟩]⟩],
              [] ++ cs⟩,
             vsMultiEx.names.countP
                (fun n => sfMultiEx.hits
                  ⟨"x", [.gen ⟨.varTok, 60, [.valueSpec vsMultiEx]⟩], []⟩ n) != 0) ∧
        cs.length =
          vsMultiEx.names.countP
            (fun n => sfMultiEx.hits
              ⟨"x", [.gen ⟨.varTok, 60, [.valueSpec vsMultiEx]⟩], []⟩ n)) ∧
    (∃ cs,
        sfGroupEx.Prune ⟨"x", [.gen ⟨.varTok, 60, [.valueSpec vsMultiEx]⟩], []⟩ =
          some (⟨"x", [], [] ++ cs⟩, true) ∧
        cs.length = vsMultiEx.names.length) := by
  constructor
  · exact (prune_value_binding_arity sfMultiEx "x" .varTok 60 vsMultiEx [] _
      rfl (by decide) (by decide)).1 (by decide)
  · exact (prune_value_binding_arity sfGroupEx "x" .varTok 60 vsMultiEx [] _
      rfl (by decide) (by decide)).2 (by decide)

theorem pruneSpec_no_match_proj (sf : SymbolFilter) (f : File) (tok : Tok)
    (ppos : Pos) (sp : Spec)
    (h : ∀ k ∈ Spec.keysOf f sp, lookupKey sf.willPrune k = none) :
    (sf.pruneSpec f tok ppos sp).2.1 = [] ∧
    (sf.pruneSpec f tok ppos sp).2.2 = false := by
  cases sp with
  | importSpec s => exact ⟨rfl, rfl⟩
  | typeSpec s =>
    have hl : lookupKey sf.willPrune (SymbolFilter.keyType f s) = none :=
      h _ (by simp [Spec.keysOf])
    simp [SymbolFilter.pruneSpec, hl]
  | valueSpec s =>
    have hhit : ∀ n ∈ s.names, sf.hits f n = false := by
      intro n hn
      have hl : lookupKey sf.willPrune (SymbolFilter.keyIdent f n.name) = none := by
        apply h
        simp only [Spec.keysOf, List.mem_map]
        exact ⟨n, hn, rfl⟩
      simp [SymbolFilter.hits, hl]
    have hcnt : s.names.countP (fun n => sf.hits f n) = 0 :=
      List.countP_eq_zero.mpr (by intro a ha; simp [hhit a ha])
    constructor
    · show (pruneNames sf f tok ppos s.names).2.1 = []
      apply List.length_eq_zero.mp
      rw [pruneNames_comments_length, hcnt]
    · show ((pruneNames sf f tok ppos s.names).2.2 != 0) = false
      rw [pruneNames_count, hcnt]
      rfl

theorem pruneDecl_no_match (sf : SymbolFilter) (f : File) (d : Decl)
    (hks : ∃ ks, Decl.keysOf f d = some ks ∧
      ∀ k ∈ ks, lookupKey sf.willPrune k = none) :
    ∃ kept, sf.pruneDecl f d = some (kept, [], false) := by
  obtain ⟨ks, hk, hnone⟩ := hks
  cases d with
  | func fd =>
    cases hkf : SymbolFilter.keyFunc f fd with
    | none => simp [Decl.keysOf, hkf] at hk
    | some k0 =>
      have hkeq : ks = [k0] := by
        simp [Decl.keysOf, hkf] at hk
        exact hk.symm
      have hl : lookupKey sf.willPrune k0 = none := by
        apply hnone
        rw [hkeq]
        exact List.mem_singleton.mpr rfl
      exact ⟨some (.func fd), by simp [SymbolFilter.pruneDecl, hkf, hl]⟩
  | gen g =>
    by_cases ht : g.tok = Tok.importTok
    · exact ⟨some (.gen g), by simp [SymbolFilter.pruneDecl, ht]⟩
    · have hk2 : ks = g.specs.flatMap (Spec.keysOf f) := by
        simp [Decl.keysOf, ht] at hk
        exact hk.symm
      have hspec : ∀ sp ∈ g.specs,
          (sf.pruneSpec f g.tok g.pos sp).2.1 = [] ∧
          (sf.pruneSpec f g.tok g.pos sp).2.2 = false := by
        intro sp hsp
        apply pruneSpec_no_match_proj
        intro k hkmem
        apply hnone
        rw [hk2]
        exact List.mem_flatMap.mpr ⟨sp, hsp, hkmem⟩
      have hcom : (g.specs.map (sf.pruneSpec f g.tok g.pos)).foldl
          (fun acc r => acc ++ r.2.1) [] = [] := by
        rw [foldl_append_eq_flatten
          (fun (r : Option Spec × List Comment × Bool) => r.2.1)
          (g.specs.map (sf.pruneSpec f g.tok g.pos)) []]
        simp only [List.nil_append, List.map_map]
        apply List.flatten_eq_nil_iff.mpr
        intro l hl
        obtain ⟨sp, hsp, rfl⟩ := List.mem_map.mp hl
        exact (hspec sp hsp).1
      have hany : (g.specs.map (sf.pruneSpec f g.tok g.pos)).any
          (fun r => r.2.2) = false := by
        apply List.any_eq_false.mpr
        intro r hr
        obtain ⟨sp, hsp, rfl⟩ := List.mem_map.mp hr
        simp [(hspec sp hsp).2]
      refine ⟨if ((g.specs.map (sf.pruneSpec f g.tok g.pos)).filterMap
            (fun r => r.1)).isEmpty
          then none
          else some (.gen { g with
            specs := (g.specs.map (sf.pruneSpec f g.tok g.pos)).filterMap
              (fun r => r.1) }), ?_⟩
      rw [pruneDecl_gen sf f g ht, hcom, hany]

theorem prune_fold_no_match (sf : SymbolFilter) (f : File) :
    ∀ (decls : List Decl) (ds0 : List Decl) (cs0 : List Comment),
      (∀ d ∈ decls, ∃ kept, sf.pruneDecl f d = some (kept, [], false)) →
      ∃ ds, decls.foldlM (sf.pruneStep f) (ds0, cs0, false) =
        some (ds0 ++ ds, cs0, false) := by
  intro decls
  induction decls with
  | nil =>
    intro ds0 cs0 h
    exact ⟨[], by simp [List.foldlM_nil]⟩
  | cons d rest ih =>
    intro ds0 cs0 h
    obtain ⟨kept, hd⟩ := h d (List.mem_cons_self d rest)
    have hstep : sf.pruneStep f (ds0, cs0, false) d =
        some (ds0 ++ kept.toList, cs0, false) := by
      simp [SymbolFilter.pruneStep, hd]
    obtain ⟨ds, hds⟩ :=
      ih (ds0 ++ kept.toList) cs0 (fun d2 h2 => h d2 (List.mem_cons_of_mem d h2))
    refine ⟨kept.toList ++ ds, ?_⟩
    rw [List.foldlM_cons, hstep]
    show rest.foldlM (sf.pruneStep f) (ds0 ++ kept.toList, cs0, false) =
      some (ds0 ++ (kept.toList ++ ds), cs0, false)
    rw [hds, List.append_assoc]

/-- C6: `Prune` with an empty symbol table returns `changed = false`
immediately, leaving the tree untouched; and a non-empty table none of
whose keys matches any key checked in the file also yields
`changed = false`, so the pipeline driver takes the fast-copy path and
the output bytes equal the input bytes. -/
theorem prune_noop_fast_path (sf : SymbolFilter) (f : File) :
    (sf.IsEmpty = true → sf.Prune f = some (f, false)) ∧
    ((∀ d ∈ f.decls, ∃ ks, Decl.keysOf f d = some ks ∧
        ∀ k ∈ ks, lookupKey sf.willPrune k = none) →
      ∃ f2, sf.Prune f = some (f2, false) ∧
        ∀ (parse : String → Option File) (render : File → String) (lfs : LoadFS)
          (loadPath writePath : Path) (dsk : DiskState) (text : String),
          lfs.contents loadPath = some text → parse text = some f →
          lfs.isRealDir = false → dsk.pathExists writePath = false →
          processSource parse render lfs loadPath writePath
              sf.pruneTransformer dsk =
            some (.ok (dsk.create writePath text))) := by
  constructor
  · intro he
    simp [SymbolFilter.Prune, he]
  · intro hnom
    by_cases he : sf.IsEmpty = true
    · refine ⟨f, by simp [SymbolFilter.Prune, he], ?_⟩
      intro parse render lfs loadPath writePath dsk text hc hp hreal hex
      simp [processSource, hc, hp, SymbolFilter.pruneTransformer,
        SymbolFilter.Prune, he, copyUnmodified, hreal]
    · have he2 : sf.IsEmpty = false := by
        cases hb : sf.IsEmpty
        · rfl
        · exact absurd hb he
      have hall : ∀ d ∈ f.decls, ∃ kept, sf.pruneDecl f d = some (kept, [], false) :=
        fun d hd => pruneDecl_no_match sf f d (hnom d hd)
      obtain ⟨ds, hds⟩ := prune_fold_no_match sf f f.decls [] [] hall
      have hPr : sf.Prune f = some ({ f with decls := ds }, false) := by
        unfold SymbolFilter.Prune
        rw [if_neg (by simp [he2]), hds]
        simp
      refine ⟨_, hPr, ?_⟩
      intro parse render lfs loadPath writePath dsk text hc hp hreal hex
      simp [processSource, hc, hp, SymbolFilter.pruneTransformer, hPr,
        copyUnmodified, hreal]

/-- C6 witness: the empty filter is an immediate no-op on the trivial
file, and a non-matching filter drives the pipeline through the
fast-copy path, reproducing the input bytes at the destination. -/
theorem prune_noop_fast_path_witness :
    sfEmptyEx.Prune fileTrivial = some (fileTrivial, false) ∧
    processSource parseEx renderEx lfsVirtualEx "in.go" "out2.go"
        sfUnrelatedEx.pruneTransformer ⟨[]⟩ =
      some (.ok (DiskState.create ⟨[]⟩ "out2.go" "package x")) := by
  constructor
  · exact (prune_noop_fast_path sfEmptyEx fileTrivial).1 (by decide)
  · obtain ⟨f2, hPr, hdrv⟩ :=
      (prune_noop_fast_path sfUnrelatedEx fileTrivial).2
        (by intro d hd; exact absurd hd (by simp [fileTrivial]))
    exact hdrv parseEx renderEx lfsVirtualEx "in.go" "out2.go" ⟨[]⟩ "package x"
      (by decide) (by decide) rfl (by decide)

theorem any_congr_mem {α : Type} (p q : α → Bool) :
    ∀ l : List α, (∀ a ∈ l, p a = q a) → l.any p = l.any q := by
  intro l
  induction l with
  | nil => intro h; rfl
  | cons a rest ih =>
    intro h
    simp only [List.any_cons, h a (List.mem_cons_self a rest),
      ih (fun b hb => h b (List.mem_cons_of_mem a hb))]

theorem flatMap_congr_mem {α β : Type} (g h : α → List β) :
    ∀ l : List α, (∀ a ∈ l, g a = h a) → l.flatMap g = l.flatMap h := by
  intro l
  induction l with
  | nil => intro hc; rfl
  | cons a rest ih =>
    intro hc
    simp only [List.flatMap_cons, hc a (List.mem_cons_self a rest),
      ih (fun b hb => hc b (List.mem_cons_of_mem a hb))]

theorem rewriteSpecs_imports :
    ∀ specs : List Spec,
      ((specs.map rewriteSpec).map (fun r => r.1)).filterMap Spec.importOf =
        (specs.filterMap Spec.importOf).map (fun s => (rewriteImport s).1) := by
  intro specs
  induction specs with
  | nil => rfl
  | cons sp rest ih =>
    cases sp with
    | importSpec is =>
      show (rewriteImport is).1 ::
          ((rest.map rewriteSpec).map (fun r => r.1)).filterMap Spec.importOf =
        (rewriteImport is).1 ::
          (rest.filterMap Spec.importOf).map (fun s => (rewriteImport s).1)
      exact congrArg _ ih
    | valueSpec s =>
      show ((rest.map rewriteSpec).map (fun r => r.1)).filterMap Spec.importOf =
        (rest.filterMap Spec.importOf).map (fun s => (rewriteImport s).1)
      exact ih
    | typeSpec s =>
      show ((rest.map rewriteSpec).map (fun r => r.1)).filterMap Spec.importOf =
        (rest.filterMap Spec.importOf).map (fun s => (rewriteImport s).1)
      exact ih

theorem rewriteSpecs_any :
    ∀ specs : List Spec,
      (specs.map rewriteSpec).any (fun r => r.2) =
        (specs.filterMap Spec.importOf).any (fun s => (rewriteImport s).2) := by
  intro specs
  induction specs with
  | nil => rfl
  | cons sp rest ih =>
    cases sp with
    | importSpec is =>
      show ((rewriteImport is).2 || (rest.map rewriteSpec).any (fun r => r.2)) =
        ((rewriteImport is).2 ||
          (rest.filterMap Spec.importOf).any (fun s => (rewriteImport s).2))
      rw [ih]
    | valueSpec s =>
      show (false || (rest.map rewriteSpec).any (fun r => r.2)) =
        (rest.filterMap Spec.importOf).any (fun s => (rewriteImport s).2)
      rw [Bool.false_or]
      exact ih
    | typeSpec s =>
      show (false || (rest.map rewriteSpec).any (fun r => r.2)) =
        (rest.filterMap Spec.importOf).any (fun s => (rewriteImport s).2)
      rw [Bool.false_or]
      exact ih

theorem rewriteDeclImports_imports (d : Decl) :
    Decl.importSpecsOf (rewriteDeclImports d).1 =
      (Decl.importSpecsOf d).map (fun s => (rewriteImport s).1) ∧
    (rewriteDeclImports d).2 =
      (Decl.importSpecsOf d).any (fun s => (rewriteImport s).2) := by
  cases d with
  | func fd => exact ⟨rfl, rfl⟩
  | gen g =>
    constructor
    · show ((g.specs.map rewriteSpec).map (fun r => r.1)).filterMap Spec.importOf = _
      exact rewriteSpecs_imports g.specs
    · show (g.specs.map rewriteSpec).any (fun r => r.2) = _
      exact rewriteSpecs_any g.specs

theorem rewriteDecls_any (l : List Decl) :
    (l.map rewriteDeclImports).any (fun r => r.2) =
      l.any (fun d => (Decl.importSpecsOf d).any (fun s => (rewriteImport s).2)) := by
  induction l with
  | nil => rfl
  | cons d rest ih =>
    simp only [List.map_cons, List.any_cons, ih, (rewriteDeclImports_imports d).2]

/-- C8: the `nosync` import redirector rewrites exactly the import
specs whose (unquoted) path is `"sync"`, synthesizing the alias `sync`
when none was present and keeping an existing alias; it reports
`changed = true` iff at least one import was rewritten, and it leaves
every other import spec — including those already pointing at the
redirect destination — and the rest of the file untouched. -/
theorem nosync_rewrites_sync_imports (f : File) :
    ∃ f2 ch, nosync f = some (f2, ch) ∧
      f2.pkgName = f.pkgName ∧
      f2.comments = f.comments ∧
      File.importSpecsOf f2 =
        (File.importSpecsOf f).map (fun s => (rewriteImport s).1) ∧
      (ch = true ↔ ∃ s ∈ File.importSpecsOf f, unquote s.pathValue = "sync") ∧
      (∀ s : ImportSpec, unquote s.pathValue ≠ "sync" → (rewriteImport s).1 = s) ∧
      (∀ s : ImportSpec, unquote s.pathValue = "sync" →
        (rewriteImport s).1 =
          { name := some (s.name.getD "sync"), pathValue := nosyncPathValue }) := by
  refine ⟨{ f with decls := (f.decls.map rewriteDeclImports).map (fun r => r.1) },
    (f.decls.map rewriteDeclImports).any (fun r => r.2), rfl, rfl, rfl, ?_, ?_, ?_, ?_⟩
  · show ((f.decls.map rewriteDeclImports).map (fun r => r.1)).flatMap
        Decl.importSpecsOf =
      (f.decls.flatMap Decl.importSpecsOf).map (fun s => (rewriteImport s).1)
    rw [List.flatMap_map, List.flatMap_map, List.map_flatMap]
    apply flatMap_congr_mem
    intro d hd
    exact (rewriteDeclImports_imports d).1
  · show (f.decls.map rewriteDeclImports).any (fun r => r.2) = true ↔ _
    rw [rewriteDecls_any f.decls,
      ← any_flatMap Decl.importSpecsOf (fun s => (rewriteImport s).2) f.decls,
      List.any_eq_true]
    constructor
    · rintro ⟨s, hs, hp⟩
      refine ⟨s, hs, ?_⟩
      by_cases hq : unquote s.pathValue = "sync"
      · exact hq
      · simp [rewriteImport, hq] at hp
    · rintro ⟨s, hs, hq⟩
      exact ⟨s, hs, by simp [rewriteImport, hq]⟩
  · intro s hq
    simp [rewriteImport, hq]
  · intro s hq
    simp [rewriteImport, hq]

/-- C4 counterexample: the claim says every placeholder comment has
exactly the text `// <K> <N> — GopherJS replacement at <pos>`.  The
`SymbolFilter` implementation prints the whole abbreviated node with
`go/format`, so a pruned `func SomeFunc()` yields
`// func SomeFunc() — ...` — the signature's parentheses make the text
differ from the claimed `// func SomeFunc — ...`. -/
theorem placeholder_text_includes_signature :
    sfFuncEx.Prune fileFuncEx =
      some
        (⟨"example", [],
          [⟨20, "// func SomeFunc() — GopherJS replacement at overlay.go:2:5"⟩]⟩,
         true) ∧
    "// func SomeFunc() — GopherJS replacement at overlay.go:2:5" ≠
      claimedPlaceholderText "func" "SomeFunc" "overlay.go:2:5" := by
  exact ⟨by decide, by decide⟩

/-- C4 (amended): no implementation emits exactly the claimed
`// <K> <N> — GopherJS replacement at <pos>` text.  The `SymbolFilter`
implementation embeds the formatted abbreviated declaration around a
true em-dash, so a blanked name of a multi-name value binding gets one
comment per name of the form
`// <K> <N> <abbreviated> — GopherJS replacement at <pos>` (the
abbreviated type placeholder replacing the initializer expression),
while pruned functions carry their full formatted signature.  The
`augmenter` implementation emits the bare `<K> <N>` shape, but its
format string carries the mojibake characters U+00E2 U+20AC U+201D in
place of the em-dash, so its text differs from the claimed template
too. -/
theorem placeholder_text_formats
    (sf : SymbolFilter) (pkg : String) (tok : Tok) (gpos : Pos)
    (a b : Ident) (ty : Option Expr) (vals : List Expr) (pa : Pos)
    (cmts : List Comment)
    (ht : tok ≠ Tok.importTok)
    (ha : lookupKey sf.willPrune (pkg ++ "." ++ a.name) = some pa)
    (hb : lookupKey sf.willPrune (pkg ++ "." ++ b.name) = none)
    (hline : recommentNewlines (formatNode (.valueAbbrev tok a.name)) =
      formatNode (.valueAbbrev tok a.name)) :
    sf.Prune ⟨pkg, [.gen ⟨tok, gpos, [.valueSpec ⟨[a, b], ty, vals⟩]⟩], cmts⟩ =
      some
        (⟨pkg,
          [.gen ⟨tok, gpos, [.valueSpec ⟨[⟨"_", 0⟩, b], ty, vals⟩]⟩],
          cmts ++ [⟨gpos - 1,
            claimedPlaceholderText tok.render (a.name ++ " <abbreviated>")
              (sf.position pa)⟩]⟩,
         true) ∧
    (∀ (fset : FileSet) (tk : Tok) (nm : String) (rp : Pos),
      Augmenter.placeholderText fset tk nm rp =
        "// " ++ tk.render ++ " " ++ nm ++ " â€” GopherJS replacement at " ++
          fset rp) ∧
    Augmenter.placeholderText (fun _ => "overlay.go:2:5") Tok.funcTok "SomeFunc" 9 ≠
      claimedPlaceholderText "func" "SomeFunc" "overlay.go:2:5" := by
  refine ⟨?_, fun fset tk nm rp => rfl, by decide⟩
  have htext : sf.placeholderText (.valueAbbrev tok a.name) pa =
      claimedPlaceholderText tok.render (a.name ++ " <abbreviated>")
        (sf.position pa) := by
    unfold SymbolFilter.placeholderText claimedPlaceholderText
    rw [hline]
    show "// " ++ (tok.render ++ " " ++ a.name ++ " <abbreviated>") ++
        " — GopherJS replacement at " ++ sf.position pa =
      "// " ++ tok.render ++ " " ++ (a.name ++ " <abbreviated>") ++
        " — GopherJS replacement at " ++ sf.position pa
    simp [String.append_assoc]
  have hpn : pruneNames sf
      ⟨pkg, [.gen ⟨tok, gpos, [.valueSpec ⟨[a, b], ty, vals⟩]⟩], cmts⟩ tok gpos
      [a, b] =
      ([⟨"_", 0⟩, b],
       [⟨gpos - 1, sf.placeholderText (.valueAbbrev tok a.name) pa⟩], 1) := by
    simp [pruneNames, SymbolFilter.keyIdent, ha, hb, SymbolFilter.placeholderComment]
  have hsingle := pruneDecl_single_value sf
    ⟨pkg, [.gen ⟨tok, gpos, [.valueSpec ⟨[a, b], ty, vals⟩]⟩], cmts⟩ tok gpos
    ⟨[a, b], ty, vals⟩ ht
  simp only [hpn] at hsingle
  simp at hsingle
  have hempty : sf.IsEmpty = false := isEmpty_false_of_lookup_some ha
  have hrun := prune_single_gen sf pkg ⟨tok, gpos, [.valueSpec ⟨[a, b], ty, vals⟩]⟩
    cmts
    (some (.gen ⟨tok, gpos, [.valueSpec ⟨[⟨"_", 0⟩, b], ty, vals⟩]⟩),
     [⟨gpos - 1, sf.placeholderText (.valueAbbrev tok a.name) pa⟩], true)
    hempty (by rw [hsingle])
  rw [htext] at hrun
  simpa using hrun

/-- C4 witness: pruning `p.a` out of `var a, b = g()` emits the comment
`// var a <abbreviated> — GopherJS replacement at overlay.go:3:4`, and
the augmenter's text differs from the claimed template (its dash is the
mojibake sequence). -/
theorem placeholder_text_formats_witness :
    sfValEx.Prune
        ⟨"p", [.gen ⟨.varTok, 30,
          [.valueSpec ⟨[⟨"a", 31⟩, ⟨"b", 34⟩], none, [.other "g()"]⟩]⟩], []⟩ =
      some
        (⟨"p",
          [.gen ⟨.varTok, 30,
            [.valueSpec ⟨[⟨"_", 0⟩, ⟨"b", 34⟩], none, [.other "g()"]⟩]⟩],
          [] ++ [⟨29,
            claimedPlaceholderText "var" ("a" ++ " <abbreviated>")
              (sfValEx.position 7)⟩]⟩,
         true) ∧
    Augmenter.placeholderText (fun _ => "overlay.go:2:5") Tok.funcTok "SomeFunc" 9 ≠
      claimedPlaceholderText "func" "SomeFunc" "overlay.go:2:5" := by
  have h := placeholder_text_formats sfValEx "p" .varTok 30 ⟨"a", 31⟩ ⟨"b", 34⟩
    none [.other "g()"] 7 [] (by decide) (by decide) (by decide) (by decide)
  exact ⟨by simpa using h.1, h.2.2⟩

end GoRoot
